import Mathlib

/-!
Verification of the range-aware LRU cache (`task_1.py`): a capacity-bounded
LRU cache keyed by inclusive index ranges over a mutable integer array,
together with the cached range-sum / point-update query engine built on it.

The Python code is shallowly embedded: the `OrderedDict` backing the cache
becomes an association list ordered from least-recently-used (front) to
most-recently-used (back); Python list slicing and item assignment are
modelled with their exact clamping / negative-index semantics; the
`IndexError` that item assignment can raise becomes `Option`.
-/

set_option autoImplicit false

namespace Task1

/-- A cache key `(left, right)`, as produced by `range_sum_with_cache`. -/
abbrev RangeKey := Int × Int

/-- Clamp an integer slice endpoint to `[0, n]`, following Python's slice
semantics for step 1: negative endpoints count from the end of the list. -/
def pySliceBound (i : Int) (n : Nat) : Nat :=
  if i < 0 then ((n : Int) + i).toNat else min i.toNat n

/-- Python's `a[start:stop]` for a list of length `a.length` (step 1). -/
def pySlice (a : List Int) (start stop : Int) : List Int :=
  let s := pySliceBound start a.length
  let e := pySliceBound stop a.length
  (a.drop s).take (e - s)

/-- `sum(array[left:right + 1])`, the body of `range_sum_no_cache`. -/
def range_sum_no_cache (a : List Int) (left right : Int) : Int :=
  (pySlice a left (right + 1)).sum

/-- Python's `array[index] = value` on a list: in-range and negative indices
write in place, anything else raises `IndexError` (modelled as `none`).
This is the body of `update_no_cache` and the first statement of
`update_with_cache`. -/
def pySetItem (a : List Int) (index value : Int) : Option (List Int) :=
  if 0 ≤ index ∧ index < (a.length : Int) then
    some (a.set index.toNat value)
  else if -(a.length : Int) ≤ index ∧ index < 0 then
    some (a.set ((a.length : Int) + index).toNat value)
  else
    none

/-- First value stored under `key` in an association list (Python `od[key]`,
with `none` for a missing key). -/
def odGet? : List (RangeKey × Int) → RangeKey → Option Int
  | [], _ => none
  | (k, v) :: rest, key => if k = key then some v else odGet? rest key

/-- Remove every binding of `key` (Python `del od[key]`; on the unique-key
lists arising from `OrderedDict` there is at most one). -/
def odRemove (od : List (RangeKey × Int)) (key : RangeKey) : List (RangeKey × Int) :=
  od.filter (fun p => p.1 ≠ key)

/-- The `LRUCache` object: `_od` is the `OrderedDict`, listed from
least-recently-used (front) to most-recently-used (back). -/
structure LRUCache where
  capacity : Int
  od : List (RangeKey × Int)
  hits : Nat
  misses : Nat
  deriving DecidableEq

/-- `LRUCache.__init__`: `capacity <= 0` raises `ValueError` (modelled as
`none`); otherwise the cache starts empty with zeroed counters. -/
def LRUCache.init (capacity : Int) : Option LRUCache :=
  if capacity ≤ 0 then none
  else some { capacity := capacity, od := [], hits := 0, misses := 0 }

/-- An already-constructed cache with the given capacity, empty, counters 0. -/
def LRUCache.fresh (capacity : Int) : LRUCache :=
  { capacity := capacity, od := [], hits := 0, misses := 0 }

/-- `LRUCache.get`: on a present key, move it to the most-recently-used end,
bump `hits` and return its value; otherwise bump `misses` and return the
sentinel `-1`. -/
def LRUCache.get (c : LRUCache) (key : RangeKey) : Int × LRUCache :=
  match odGet? c.od key with
  | some v => (v, { c with od := odRemove c.od key ++ [(key, v)], hits := c.hits + 1 })
  | none => (-1, { c with misses := c.misses + 1 })

/-- `LRUCache.put`: a present key is moved to the most-recently-used end and
overwritten, an absent key is appended; then, if the dict exceeds capacity,
`popitem(last=False)` drops the least-recently-used entry (the front). -/
def LRUCache.put (c : LRUCache) (key : RangeKey) (value : Int) : LRUCache :=
  let od1 :=
    if (odGet? c.od key).isSome then odRemove c.od key ++ [(key, value)]
    else c.od ++ [(key, value)]
  let od2 := if (od1.length : Int) > c.capacity then od1.drop 1 else od1
  { c with od := od2 }

/-- `LRUCache.keys`: the keys of the dict in recency order. -/
def LRUCache.keys (c : LRUCache) : List RangeKey :=
  c.od.map (fun p => p.1)

/-- `range_sum_with_cache`: consult the cache under key `(left, right)`;
a returned value other than `-1` is used directly, otherwise the slice sum
is recomputed from the array and stored. Returns the sum and the new cache. -/
def range_sum_with_cache (a : List Int) (left right : Int) (c : LRUCache) :
    Int × LRUCache :=
  let key : RangeKey := (left, right)
  let res := c.get key
  if res.1 ≠ -1 then res
  else
    let total := (pySlice a left (right + 1)).sum
    (total, res.2.put key total)

/-- `update_with_cache`: write `value` at `index` (Python item assignment,
which raises on an index outside `[-N, N)` — modelled as `none`), then
collect every cached key `(l, r)` with `l ≤ index ≤ r` and delete those
bindings from the dict. Returns the new array and cache. -/
def update_with_cache (a : List Int) (index value : Int) (c : LRUCache) :
    Option (List Int × LRUCache) :=
  match pySetItem a index value with
  | none => none
  | some a2 =>
    let toDelete := (c.keys).filter (fun k => k.1 ≤ index ∧ index ≤ k.2)
    some (a2, { c with od := toDelete.foldl (fun od k => odRemove od k) c.od })

/-- `update_no_cache`: bare item assignment. -/
def update_no_cache (a : List Int) (index value : Int) : Option (List Int) :=
  pySetItem a index value

/-- One operation of the engine's workload: `Range(left, right)` or
`Update(index, value)`. -/
inductive EOp where
  | range (left right : Int)
  | update (index value : Int)
  deriving DecidableEq

/-- One step of the cached engine (`run_with_cache` loop body): a `Range`
operation leaves the array alone and emits its sum, an `Update` mutates the
array and invalidates the cache. -/
def engineStep (s : List Int × LRUCache) : EOp → Option ((List Int × LRUCache) × Option Int)
  | .range l r =>
    let res := range_sum_with_cache s.1 l r s.2
    some ((s.1, res.2), some res.1)
  | .update i v =>
    match update_with_cache s.1 i v s.2 with
    | none => none
    | some s2 => some (s2, none)

/-- Run the cached engine over a workload, collecting every `Range` result. -/
def engineRun (s : List Int × LRUCache) : List EOp → Option ((List Int × LRUCache) × List Int)
  | [] => some (s, [])
  | op :: ops =>
    match engineStep s op with
    | none => none
    | some (s2, out) =>
      match engineRun s2 ops with
      | none => none
      | some (s3, outs) =>
        some (s3, match out with | some v => v :: outs | none => outs)

/-- One step of the uncached reference (`run_no_cache` loop body). -/
def plainStep (a : List Int) : EOp → Option (List Int × Option Int)
  | .range l r => some (a, some (range_sum_no_cache a l r))
  | .update i v =>
    match update_no_cache a i v with
    | none => none
    | some a2 => some (a2, none)

/-- Run the uncached reference over a workload, collecting `Range` results. -/
def plainRun (a : List Int) : List EOp → Option (List Int × List Int)
  | [] => some (a, [])
  | op :: ops =>
    match plainStep a op with
    | none => none
    | some (a2, out) =>
      match plainRun a2 ops with
      | none => none
      | some (a3, outs) =>
        some (a3, match out with | some v => v :: outs | none => outs)

/-- An operation's arguments are in range for an array of length `n`
(the precondition of the freshness claim). -/
def OpInRange (n : Nat) : EOp → Prop
  | .range l r => 0 ≤ l ∧ l ≤ r ∧ r < (n : Int)
  | .update i _ => 0 ≤ i ∧ i < (n : Int)

instance (n : Nat) (op : EOp) : Decidable (OpInRange n op) := by
  cases op <;> simp only [OpInRange] <;> exact inferInstance

/-- A raw cache operation, for invariants quantified over every way the
engine touches the cache: lookup, insert, and overlap invalidation. -/
inductive CacheOp where
  | get (key : RangeKey)
  | put (key : RangeKey) (value : Int)
  | invalidate (index : Int)
  deriving DecidableEq

/-- Apply one raw cache operation (invalidation is the deletion loop of
`update_with_cache`). -/
def cacheStep (c : LRUCache) : CacheOp → LRUCache
  | .get k => (c.get k).2
  | .put k v => c.put k v
  | .invalidate i =>
    let toDelete := (c.keys).filter (fun k => k.1 ≤ i ∧ i ≤ k.2)
    { c with od := toDelete.foldl (fun od k => odRemove od k) c.od }

/-- Run a sequence of raw cache operations. -/
def cacheRun (c : LRUCache) (ops : List CacheOp) : LRUCache :=
  ops.foldl cacheStep c

/-! Section: Association-list lemmas -/

theorem odGet?_mem {od : List (RangeKey × Int)} {k : RangeKey} {v : Int}
    (h : odGet? od k = some v) : (k, v) ∈ od := by
  induction od with
  | nil => simp [odGet?] at h
  | cons p rest ih =>
    obtain ⟨k1, v1⟩ := p
    rw [odGet?] at h
    by_cases hk : k1 = k
    · rw [if_pos hk] at h
      cases h
      subst hk
      exact List.mem_cons_self _ _
    · rw [if_neg hk] at h
      exact List.mem_cons_of_mem _ (ih h)

theorem odGet?_eq_none {od : List (RangeKey × Int)} {k : RangeKey} :
    odGet? od k = none ↔ k ∉ od.map Prod.fst := by
  induction od with
  | nil => simp [odGet?]
  | cons p rest ih =>
    obtain ⟨k1, v1⟩ := p
    rw [odGet?]
    by_cases hk : k1 = k
    · subst hk
      simp
    · rw [if_neg hk]
      simp [ih, Ne.symm hk]

theorem foldl_odRemove (ks : List RangeKey) (od : List (RangeKey × Int)) :
    ks.foldl (fun od k => odRemove od k) od = od.filter (fun p => p.1 ∉ ks) := by
  induction ks generalizing od with
  | nil => simp
  | cons k ks ih =>
    rw [List.foldl_cons, ih]
    unfold odRemove
    rw [List.filter_filter]
    apply List.filter_congr
    intro p _
    by_cases hk : p.1 = k <;> by_cases hm : p.1 ∈ ks <;> simp [hk, hm]

theorem update_od (c : LRUCache) (i : Int) :
    ((c.keys.filter (fun k => k.1 ≤ i ∧ i ≤ k.2)).foldl
        (fun od k => odRemove od k) c.od)
      = c.od.filter (fun p => ¬(p.1.1 ≤ i ∧ i ≤ p.1.2)) := by
  rw [foldl_odRemove]
  apply List.filter_congr
  intro p hp
  have hk : p.1 ∈ c.keys := List.mem_map_of_mem _ hp
  simp only [decide_eq_decide, List.mem_filter, hk, true_and, not_and,
    decide_eq_true_eq]

theorem update_with_cache_inRange (a : List Int) (i v : Int) (c : LRUCache)
    (h0 : 0 ≤ i) (h1 : i < (a.length : Int)) :
    update_with_cache a i v c =
      some (a.set i.toNat v,
        { c with od := c.od.filter (fun p => ¬(p.1.1 ≤ i ∧ i ≤ p.1.2)) }) := by
  unfold update_with_cache pySetItem
  rw [if_pos ⟨h0, h1⟩]
  simp only [update_od]

theorem pySliceBound_nonneg (i : Int) (n : Nat) (h : 0 ≤ i) :
    pySliceBound i n = min i.toNat n := by
  unfold pySliceBound
  rw [if_neg (by omega)]

/-! Section: The invalidation claims -/

/-- Claim C2: after an in-range `update_with_cache`, no cached entry whose
key overlaps the updated index remains; the surviving dict is exactly the
non-overlapping sub-list of the old one (same values, same relative recency
order, counters untouched); and when no entry overlaps, the cache object is
left entirely unchanged. -/
theorem C2_invalidation_frame (a : List Int) (i v : Int) (c : LRUCache)
    (h0 : 0 ≤ i) (h1 : i < (a.length : Int)) :
    update_with_cache a i v c =
      some (a.set i.toNat v,
        { c with od := c.od.filter (fun p => ¬(p.1.1 ≤ i ∧ i ≤ p.1.2)) }) ∧
    (∀ p ∈ c.od.filter (fun p => ¬(p.1.1 ≤ i ∧ i ≤ p.1.2)),
        ¬(p.1.1 ≤ i ∧ i ≤ p.1.2)) ∧
    ((∀ p ∈ c.od, ¬(p.1.1 ≤ i ∧ i ≤ p.1.2)) →
        update_with_cache a i v c = some (a.set i.toNat v, c)) := by
  refine ⟨update_with_cache_inRange a i v c h0 h1, ?_, ?_⟩
  · intro p hp
    have h := List.of_mem_filter hp
    simp only [decide_eq_true_eq] at h
    exact h
  · intro hall
    rw [update_with_cache_inRange a i v c h0 h1]
    have hself : c.od.filter (fun p => ¬(p.1.1 ≤ i ∧ i ≤ p.1.2)) = c.od := by
      apply List.filter_eq_self.mpr
      intro p hp
      simp only [decide_eq_true_eq]
      exact hall p hp
    rw [hself]

theorem C2_witness :
    update_with_cache [1, 2, 3] 1 9
        { capacity := 3, od := [((0, 0), 1), ((0, 2), 6)], hits := 0, misses := 0 }
      = some ([1, 9, 3],
          { capacity := 3, od := [((0, 0), 1)], hits := 0, misses := 0 }) :=
  (C2_invalidation_frame [1, 2, 3] 1 9
    { capacity := 3, od := [((0, 0), 1), ((0, 2), 6)], hits := 0, misses := 0 }
    (by decide) (by decide)).1

/-- Claim C7: an in-range `update_with_cache` is idempotent — running it a
second time with the same index and value, with no intervening inserts,
returns exactly the same array and the same cache state. -/
theorem C7_update_idempotent (a : List Int) (i v : Int) (c : LRUCache)
    (h0 : 0 ≤ i) (h1 : i < (a.length : Int)) (a2 : List Int) (c2 : LRUCache)
    (h : update_with_cache a i v c = some (a2, c2)) :
    update_with_cache a2 i v c2 = some (a2, c2) := by
  rw [update_with_cache_inRange a i v c h0 h1] at h
  simp only [Option.some.injEq, Prod.mk.injEq] at h
  obtain ⟨ha, hc⟩ := h
  subst ha hc
  rw [update_with_cache_inRange _ i v _ h0 (by simpa using h1)]
  have hf : (c.od.filter (fun p => ¬(p.1.1 ≤ i ∧ i ≤ p.1.2))).filter
      (fun p => ¬(p.1.1 ≤ i ∧ i ≤ p.1.2))
      = c.od.filter (fun p => ¬(p.1.1 ≤ i ∧ i ≤ p.1.2)) := by
    rw [List.filter_filter]
    apply List.filter_congr
    intro p _
    simp
  simp [List.set_set, hf]

theorem C7_witness :
    update_with_cache [1, 9, 3] 1 9
        { capacity := 3, od := [((0, 0), 1)], hits := 0, misses := 0 }
      = some ([1, 9, 3],
          { capacity := 3, od := [((0, 0), 1)], hits := 0, misses := 0 }) :=
  C7_update_idempotent [1, 2, 3] 1 9
    { capacity := 3, od := [((0, 0), 1), ((0, 2), 6)], hits := 0, misses := 0 }
    (by decide) (by decide) [1, 9, 3]
    { capacity := 3, od := [((0, 0), 1)], hits := 0, misses := 0 } (by decide)

/-- Claim C9: `update_with_cache` at a negative index `-N ≤ index < 0` does
not fail: it writes at position `N + index` and, provided every cached key
has a nonnegative left endpoint (as every key produced by in-range queries
does), deletes nothing — the cache survives unchanged, stale sums included. -/
theorem C9_negative_update (a : List Int) (i v : Int) (c : LRUCache)
    (_hN : 1 ≤ a.length) (h0 : -(a.length : Int) ≤ i) (h1 : i < 0)
    (hkeys : ∀ p ∈ c.od, 0 ≤ p.1.1) :
    update_with_cache a i v c = some (a.set ((a.length : Int) + i).toNat v, c) := by
  unfold update_with_cache pySetItem
  rw [if_neg (by omega), if_pos ⟨h0, h1⟩]
  have hdel : c.keys.filter (fun k => k.1 ≤ i ∧ i ≤ k.2) = [] := by
    apply List.filter_eq_nil_iff.mpr
    intro k hk
    obtain ⟨p, hp, rfl⟩ := List.mem_map.mp hk
    have hpos := hkeys p hp
    simp only [decide_eq_true_eq, not_and]
    omega
  rw [hdel]
  rfl

theorem C9_witness :
    update_with_cache [1, 2, 3] (-1) 9
        { capacity := 3, od := [((0, 2), 6), ((2, 2), 3)], hits := 0, misses := 0 }
      = some ([1, 2, 9],
          { capacity := 3, od := [((0, 2), 6), ((2, 2), 3)], hits := 0, misses := 0 }) :=
  C9_negative_update [1, 2, 3] (-1) 9
    { capacity := 3, od := [((0, 2), 6), ((2, 2), 3)], hits := 0, misses := 0 }
    (by decide) (by decide) (by decide) (by decide)

/-- Claim C10: `range_sum_with_cache` on an inverted range
`0 ≤ right < left < N` does not fail: on a genuine miss it returns 0, the
sum of the empty Python slice, and stores `((left, right), 0)` through the
ordinary `put` path, where it counts toward capacity like any entry. -/
theorem C10_empty_range (a : List Int) (left right : Int) (c : LRUCache)
    (h0 : 0 ≤ right) (h1 : right < left) (h2 : left < (a.length : Int))
    (hmiss : odGet? c.od (left, right) = none) :
    range_sum_with_cache a left right c =
      (0, LRUCache.put { c with misses := c.misses + 1 } (left, right) 0) := by
  have hslice : pySlice a left (right + 1) = [] := by
    unfold pySlice
    dsimp only
    rw [pySliceBound_nonneg _ _ (by omega), pySliceBound_nonneg _ _ (by omega)]
    have hz : min (right + 1).toNat a.length - min left.toNat a.length = 0 := by
      omega
    rw [hz, List.take_zero]
  simp only [range_sum_with_cache, LRUCache.get, hmiss, hslice, List.sum_nil,
    ne_eq, not_true_eq_false, if_false]

/-! Section: Cache-level invariants: counters, capacity, key uniqueness -/

theorem odRemove_length_lt {od : List (RangeKey × Int)} {k : RangeKey} {v : Int}
    (h : (k, v) ∈ od) : (odRemove od k).length < od.length := by
  apply List.length_filter_lt_length_iff_exists.mpr
  exact ⟨(k, v), h, by simp⟩

theorem nodup_keys_move (od : List (RangeKey × Int)) (k : RangeKey) (v : Int)
    (hnd : (od.map Prod.fst).Nodup) :
    ((odRemove od k ++ [(k, v)]).map Prod.fst).Nodup := by
  rw [List.map_append]
  apply List.Nodup.append
  · exact hnd.sublist ((List.filter_sublist od).map Prod.fst)
  · simp
  · intro x hx hx2
    simp only [List.map_cons, List.map_nil, List.mem_singleton] at hx2
    subst hx2
    obtain ⟨p, hp, hfst⟩ := List.mem_map.mp hx
    have := List.of_mem_filter hp
    simp only [decide_eq_true_eq] at this
    exact this (hfst ▸ rfl)

theorem put_invariant (c : LRUCache) (k : RangeKey) (v : Int)
    (hlen : (c.od.length : Int) ≤ c.capacity)
    (hnd : (c.od.map Prod.fst).Nodup) :
    ((c.put k v).od.length : Int) ≤ c.capacity ∧
    ((c.put k v).od.map Prod.fst).Nodup := by
  unfold LRUCache.put
  dsimp only
  set od1 := if (odGet? c.od k).isSome then odRemove c.od k ++ [(k, v)]
    else c.od ++ [(k, v)] with hod1
  have hlen1 : (od1.length : Int) ≤ c.capacity + 1 := by
    rw [hod1]
    by_cases h : (odGet? c.od k).isSome
    · rw [if_pos h]
      have hf : (odRemove c.od k).length ≤ c.od.length := List.length_filter_le _ _
      simp only [List.length_append, List.length_singleton]
      omega
    · rw [if_neg h]
      simp only [List.length_append, List.length_singleton]
      omega
  have hnd1 : (od1.map Prod.fst).Nodup := by
    rw [hod1]
    by_cases h : (odGet? c.od k).isSome
    · rw [if_pos h]
      exact nodup_keys_move c.od k v hnd
    · rw [if_neg h]
      rw [List.map_append]
      apply List.Nodup.append hnd (by simp)
      intro x hx hx2
      simp only [List.map_cons, List.map_nil, List.mem_singleton] at hx2
      subst hx2
      rw [Option.not_isSome_iff_eq_none] at h
      exact (odGet?_eq_none.mp h) hx
  by_cases hgt : (od1.length : Int) > c.capacity
  · rw [if_pos hgt]
    constructor
    · simp only [List.length_drop]
      omega
    · exact hnd1.sublist ((List.drop_sublist 1 _).map Prod.fst)
  · rw [if_neg hgt]
    exact ⟨by omega, hnd1⟩

theorem cacheStep_capacity (c : LRUCache) (op : CacheOp) :
    (cacheStep c op).capacity = c.capacity := by
  cases op with
  | get k =>
    unfold cacheStep LRUCache.get
    cases h : odGet? c.od k <;> simp [h]
  | put k v =>
    unfold cacheStep LRUCache.put
    simp
  | invalidate i =>
    unfold cacheStep
    simp

theorem cacheStep_mono (c : LRUCache) (op : CacheOp) :
    c.hits ≤ (cacheStep c op).hits ∧ c.misses ≤ (cacheStep c op).misses := by
  cases op with
  | get k =>
    unfold cacheStep LRUCache.get
    cases h : odGet? c.od k <;> simp [h]
  | put k v =>
    unfold cacheStep LRUCache.put
    simp
  | invalidate i =>
    unfold cacheStep
    simp

theorem cacheStep_invariant (c : LRUCache) (op : CacheOp)
    (hlen : (c.od.length : Int) ≤ c.capacity)
    (hnd : (c.od.map Prod.fst).Nodup) :
    ((cacheStep c op).od.length : Int) ≤ c.capacity ∧
    ((cacheStep c op).od.map Prod.fst).Nodup := by
  cases op with
  | get k =>
    unfold cacheStep LRUCache.get
    cases h : odGet? c.od k with
    | none =>
      simp only [h]
      exact ⟨hlen, hnd⟩
    | some v =>
      simp only [h]
      constructor
      · have hlt := odRemove_length_lt (odGet?_mem h)
        simp only [List.length_append, List.length_singleton]
        omega
      · exact nodup_keys_move c.od k v hnd
  | put k v =>
    exact put_invariant c k v hlen hnd
  | invalidate i =>
    unfold cacheStep
    dsimp only
    simp only [update_od]
    constructor
    · have hle : (c.od.filter (fun p => ¬(p.1.1 ≤ i ∧ i ≤ p.1.2))).length
          ≤ c.od.length := List.length_filter_le _ _
      omega
    · exact hnd.sublist ((List.filter_sublist c.od).map Prod.fst)

theorem cacheRun_invariant (ops : List CacheOp) (c : LRUCache)
    (hlen : (c.od.length : Int) ≤ c.capacity)
    (hnd : (c.od.map Prod.fst).Nodup) :
    (cacheRun c ops).capacity = c.capacity ∧
    ((cacheRun c ops).od.length : Int) ≤ c.capacity ∧
    ((cacheRun c ops).od.map Prod.fst).Nodup := by
  induction ops generalizing c with
  | nil => exact ⟨rfl, hlen, hnd⟩
  | cons op ops ih =>
    have hstep : cacheRun c (op :: ops) = cacheRun (cacheStep c op) ops := rfl
    have hcap := cacheStep_capacity c op
    have hinv := cacheStep_invariant c op hlen hnd
    have hrest := ih (cacheStep c op) (hcap ▸ hinv.1) hinv.2
    rw [hstep]
    exact ⟨hrest.1.trans hcap, hcap ▸ hrest.2.1, hrest.2.2⟩

theorem cacheRun_mono (c : LRUCache) (ops : List CacheOp) :
    c.hits ≤ (cacheRun c ops).hits ∧ c.misses ≤ (cacheRun c ops).misses := by
  induction ops generalizing c with
  | nil => exact ⟨le_refl _, le_refl _⟩
  | cons op ops ih =>
    have hstep : cacheRun c (op :: ops) = cacheRun (cacheStep c op) ops := rfl
    have h1 := cacheStep_mono c op
    have h2 := ih (cacheStep c op)
    rw [hstep]
    exact ⟨h1.1.trans h2.1, h1.2.trans h2.2⟩

/-- Claim C5: from a cache constructed with capacity `C ≥ 1`, after any
sequence of `get`/`put`/invalidation operations the dict holds at most `C`
entries and its keys are pairwise distinct (a `put` on a present key
overwrites in place, never duplicating); moreover a `put` on a present key
never grows the dict. -/
theorem C5_capacity_bound (C : Int) (hC : 1 ≤ C) (ops : List CacheOp) :
    ((cacheRun (LRUCache.fresh C) ops).od.length : Int) ≤ C ∧
    ((cacheRun (LRUCache.fresh C) ops).od.map Prod.fst).Nodup ∧
    (∀ (c : LRUCache) (k : RangeKey) (v w : Int), odGet? c.od k = some w →
      (c.put k v).od.length ≤ c.od.length) := by
  refine ⟨(cacheRun_invariant ops (LRUCache.fresh C) (by simp [LRUCache.fresh]; omega)
      (by simp [LRUCache.fresh])).2.1,
    (cacheRun_invariant ops (LRUCache.fresh C) (by simp [LRUCache.fresh]; omega)
      (by simp [LRUCache.fresh])).2.2, ?_⟩
  intro c k v w h
  have hlt := odRemove_length_lt (odGet?_mem h)
  have hput : (c.put k v).od =
      (if ((odRemove c.od k ++ [(k, v)]).length : Int) > c.capacity
        then (odRemove c.od k ++ [(k, v)]).drop 1
        else odRemove c.od k ++ [(k, v)]) := by
    unfold LRUCache.put
    rw [h]
    rfl
  rw [hput]
  by_cases hgt : ((odRemove c.od k ++ [(k, v)]).length : Int) > c.capacity
  · rw [if_pos hgt]
    simp only [List.length_drop, List.length_append, List.length_singleton]
    omega
  · rw [if_neg hgt]
    simp only [List.length_append, List.length_singleton]
    omega

theorem C5_witness :
    ((cacheRun (LRUCache.fresh 2)
        [CacheOp.put (0, 0) 1, CacheOp.put (1, 1) 2, CacheOp.put (2, 2) 3,
         CacheOp.put (1, 1) 7, CacheOp.get (2, 2),
         CacheOp.invalidate 1]).od.length : Int) ≤ 2 :=
  (C5_capacity_bound 2 (by decide)
    [CacheOp.put (0, 0) 1, CacheOp.put (1, 1) 2, CacheOp.put (2, 2) 3,
     CacheOp.put (1, 1) 7, CacheOp.get (2, 2), CacheOp.invalidate 1]).1

theorem put_capacity (c : LRUCache) (k : RangeKey) (v : Int) :
    (c.put k v).capacity = c.capacity := rfl

theorem put_fresh_key (c : LRUCache) (k : RangeKey) (v : Int)
    (hk : k ∉ c.od.map Prod.fst)
    (hlen : ((c.od.length : Int) + 1) ≤ c.capacity) :
    (c.put k v).od = c.od ++ [(k, v)] := by
  have hnone : odGet? c.od k = none := odGet?_eq_none.mpr hk
  have hstep : (c.put k v).od =
      (if ((c.od ++ [(k, v)]).length : Int) > c.capacity
        then (c.od ++ [(k, v)]).drop 1 else c.od ++ [(k, v)]) := by
    unfold LRUCache.put
    rw [hnone]
    rfl
  rw [hstep, if_neg (by simp only [List.length_append, List.length_singleton]; push_cast; omega)]

theorem cacheRun_putAll (kvs : List (RangeKey × Int)) (c : LRUCache)
    (hnd : ((c.od ++ kvs).map Prod.fst).Nodup)
    (hlen : ((c.od.length : Int) + kvs.length) ≤ c.capacity) :
    (cacheRun c (kvs.map (fun kv => CacheOp.put kv.1 kv.2))).od = c.od ++ kvs ∧
    (cacheRun c (kvs.map (fun kv => CacheOp.put kv.1 kv.2))).capacity = c.capacity := by
  induction kvs generalizing c with
  | nil => simp [cacheRun]
  | cons kv kvs ih =>
    obtain ⟨k, v⟩ := kv
    have hstep : cacheRun c ((((k, v) :: kvs)).map (fun kv => CacheOp.put kv.1 kv.2))
        = cacheRun (c.put k v) (kvs.map (fun kv => CacheOp.put kv.1 kv.2)) := rfl
    have hk : k ∉ c.od.map Prod.fst := by
      rw [List.map_append] at hnd
      intro hmem
      exact (List.nodup_append.mp hnd).2.2 hmem (by simp)
    have hod : (c.put k v).od = c.od ++ [(k, v)] := by
      apply put_fresh_key c k v hk
      simp only [List.length_cons] at hlen
      push_cast at hlen ⊢
      omega
    have hnd2 : (((c.put k v).od ++ kvs).map Prod.fst).Nodup := by
      rw [hod, List.append_assoc]
      simpa using hnd
    have hlen2 : (((c.put k v).od.length : Int) + kvs.length) ≤ (c.put k v).capacity := by
      rw [hod, put_capacity]
      simp only [List.length_append, List.length_singleton, List.length_cons,
        List.length_nil] at hlen ⊢
      push_cast at hlen ⊢
      omega
    have hrec := ih (c.put k v) hnd2 hlen2
    rw [hstep, put_capacity] at *
    refine ⟨?_, hrec.2⟩
    rw [hrec.1, hod, List.append_assoc]
    rfl

/-- Claim C4: with capacity `C ≥ 1`, putting `C + 1` pairwise-distinct keys
into a fresh cache with no intervening `get` evicts exactly the
first-inserted entry, leaving the remaining `C` in insertion order; and a
successful `get` moves the accessed key to the most-recently-used (back)
position while every other entry keeps its place, so the refreshed key is
evicted after any entry not re-accessed since. -/
theorem C4_lru_eviction (C : Int) (hC : 1 ≤ C) (kvs : List (RangeKey × Int))
    (hlen : (kvs.length : Int) = C + 1) (hnd : (kvs.map Prod.fst).Nodup) :
    (cacheRun (LRUCache.fresh C) (kvs.map (fun kv => CacheOp.put kv.1 kv.2))).od
      = kvs.drop 1 ∧
    (∀ (c : LRUCache) (k : RangeKey) (v : Int), odGet? c.od k = some v →
      (c.get k).2.od = c.od.filter (fun p => p.1 ≠ k) ++ [(k, v)]) := by
  constructor
  · have hne : kvs ≠ [] := by
      intro hcon
      rw [hcon] at hlen
      simp at hlen
      omega
    have hsplit : kvs.dropLast ++ [kvs.getLast hne] = kvs :=
      List.dropLast_append_getLast hne
    have hLlen : (kvs.dropLast.length : Int) = C := by
      rw [List.length_dropLast]
      have hpos : 1 ≤ kvs.length := by
        cases kvs with
        | nil => exact absurd rfl hne
        | cons a l => simp
      omega
    have hndL : ((([] : List (RangeKey × Int)) ++ kvs.dropLast).map Prod.fst).Nodup := by
      rw [List.nil_append]
      exact hnd.sublist ((List.dropLast_sublist kvs).map Prod.fst)
    have hfstL := cacheRun_putAll kvs.dropLast (LRUCache.fresh C) hndL
      (by simp only [LRUCache.fresh, List.length_nil]; push_cast; omega)
    have hsplitOps : kvs.map (fun kv => CacheOp.put kv.1 kv.2)
        = kvs.dropLast.map (fun kv => CacheOp.put kv.1 kv.2)
          ++ [CacheOp.put (kvs.getLast hne).1 (kvs.getLast hne).2] := by
      conv_lhs => rw [← hsplit]
      rw [List.map_append]
      rfl
    have happ : cacheRun (LRUCache.fresh C) (kvs.map (fun kv => CacheOp.put kv.1 kv.2))
        = (cacheRun (LRUCache.fresh C)
            (kvs.dropLast.map (fun kv => CacheOp.put kv.1 kv.2))).put
            (kvs.getLast hne).1 (kvs.getLast hne).2 := by
      rw [hsplitOps]
      unfold cacheRun
      rw [List.foldl_append]
      rfl
    set c1 := cacheRun (LRUCache.fresh C)
      (kvs.dropLast.map (fun kv => CacheOp.put kv.1 kv.2)) with hc1
    have hc1od : c1.od = kvs.dropLast := by
      have h2 := hfstL.1
      simp only [LRUCache.fresh, List.nil_append] at h2
      exact h2
    have hc1cap : c1.capacity = C := hfstL.2
    have hknotin : (kvs.getLast hne).1 ∉ c1.od.map Prod.fst := by
      rw [hc1od]
      intro hmem
      have hnd2 : ((kvs.dropLast ++ [kvs.getLast hne]).map Prod.fst).Nodup := by
        rw [hsplit]
        exact hnd
      rw [List.map_append] at hnd2
      exact (List.nodup_append.mp hnd2).2.2 hmem (by simp)
    have hnone : odGet? c1.od (kvs.getLast hne).1 = none := odGet?_eq_none.mpr hknotin
    have hput : (c1.put (kvs.getLast hne).1 (kvs.getLast hne).2).od =
        (if ((c1.od ++ [((kvs.getLast hne).1, (kvs.getLast hne).2)]).length : Int)
            > c1.capacity
          then (c1.od ++ [((kvs.getLast hne).1, (kvs.getLast hne).2)]).drop 1
          else c1.od ++ [((kvs.getLast hne).1, (kvs.getLast hne).2)]) := by
      unfold LRUCache.put
      rw [hnone]
      rfl
    rw [happ, hput, if_pos (by
      rw [hc1od, hc1cap]
      simp only [List.length_append, List.length_singleton]
      push_cast
      omega)]
    rw [hc1od]
    conv_rhs => rw [← hsplit]
  · intro c k v h
    unfold LRUCache.get
    rw [h]
    rfl
theorem C4_witness :
    (cacheRun (LRUCache.fresh 1)
        (([((0, 0), 5), ((1, 2), 7)] : List (RangeKey × Int)).map
          (fun kv => CacheOp.put kv.1 kv.2))).od = [((1, 2), 7)] :=
  (C4_lru_eviction 1 (by decide) [((0, 0), 5), ((1, 2), 7)]
    (by decide) (by decide)).1

/-- Claim C8: constructing the cache with capacity ≤ 0 raises (no cache
is produced); with capacity ≥ 1 it yields an empty cache with `hits = 0`
and `misses = 0`; and both counters are monotonically non-decreasing over
every subsequent operation sequence. -/
theorem C8_construction (C : Int) (c : LRUCache) (ops : List CacheOp) :
    (C ≤ 0 → LRUCache.init C = none) ∧
    (1 ≤ C → LRUCache.init C =
      some { capacity := C, od := [], hits := 0, misses := 0 }) ∧
    c.hits ≤ (cacheRun c ops).hits ∧ c.misses ≤ (cacheRun c ops).misses := by
  refine ⟨fun h => ?_, fun h => ?_, (cacheRun_mono c ops).1, (cacheRun_mono c ops).2⟩
  · unfold LRUCache.init
    rw [if_pos h]
  · unfold LRUCache.init
    rw [if_neg (by omega)]

theorem C8_witness :
    LRUCache.init 0 = none ∧
    LRUCache.init 2 = some { capacity := 2, od := [], hits := 0, misses := 0 } ∧
    (LRUCache.fresh 2).hits ≤
      (cacheRun (LRUCache.fresh 2) [CacheOp.get (0, 0)]).hits :=
  ⟨(C8_construction 0 (LRUCache.fresh 2) []).1 (by decide),
   (C8_construction 2 (LRUCache.fresh 2) []).2.1 (by decide),
   (C8_construction 2 (LRUCache.fresh 2) [CacheOp.get (0, 0)]).2.2.1⟩

theorem C10_witness :
    range_sum_with_cache [4, 5, 6] 2 0 (LRUCache.fresh 2) =
      (0, LRUCache.put
        { capacity := 2, od := [], hits := 0, misses := 1 } (2, 0) 0) :=
  C10_empty_range [4, 5, 6] 2 0 (LRUCache.fresh 2)
    (by decide) (by decide) (by decide) (by decide)

/-! Section: Slice arithmetic for the freshness proof -/

theorem pySlice_inRange (a : List Int) (l r : Int)
    (h1 : 0 ≤ l) (h2 : l ≤ r) (h3 : r < (a.length : Int)) :
    pySlice a l (r + 1) = (a.drop l.toNat).take (r.toNat + 1 - l.toNat) := by
  unfold pySlice
  dsimp only
  rw [pySliceBound_nonneg _ _ (by omega), pySliceBound_nonneg _ _ (by omega)]
  have hb1 : min l.toNat a.length = l.toNat := Nat.min_eq_left (by omega)
  have hb2 : min (r + 1).toNat a.length = r.toNat + 1 := by
    rw [Nat.min_eq_left (by omega)]
    omega
  rw [hb1, hb2]

theorem drop_take_eq_map (a : List Int) (s k : Nat) (h : s + k ≤ a.length) :
    (a.drop s).take k = (List.range k).map (fun j => a.getD (s + j) 0) := by
  apply List.ext_getElem
  · simp only [List.length_take, List.length_drop, List.length_map,
      List.length_range]
    omega
  · intro i h1 h2
    rw [List.getElem_take (a.drop s), List.getElem_drop, List.getElem_map]
    rw [List.getElem_range]
    rw [List.getD_eq_getElem a 0 (by
      simp only [List.length_take, List.length_drop] at h1
      omega)]

theorem slice_set_outside (a : List Int) (i : Nat) (v : Int) (s k : Nat)
    (h : s + k ≤ a.length) (hout : i < s ∨ s + k ≤ i) :
    ((a.set i v).drop s).take k = (a.drop s).take k := by
  rw [drop_take_eq_map _ _ _ (by simpa using h), drop_take_eq_map _ _ _ h]
  apply List.map_congr_left
  intro j hj
  have hj2 : j < k := List.mem_range.mp hj
  rw [List.getD_eq_getElem?_getD, List.getD_eq_getElem?_getD,
    List.getElem?_set_ne (by omega)]

theorem range_sum_set_outside (a : List Int) (l r i v : Int)
    (hl : 0 ≤ l) (hlr : l ≤ r) (hr : r < (a.length : Int))
    (hi0 : 0 ≤ i) (hi1 : i < (a.length : Int)) (hout : ¬(l ≤ i ∧ i ≤ r)) :
    range_sum_no_cache (a.set i.toNat v) l r = range_sum_no_cache a l r := by
  unfold range_sum_no_cache
  rw [pySlice_inRange _ l r hl hlr (by simpa using hr),
    pySlice_inRange a l r hl hlr hr]
  rw [slice_set_outside a i.toNat v l.toNat (r.toNat + 1 - l.toNat)
    (by omega) (by omega)]

/-! Section: The freshness invariant and its preservation -/

/-- A key produced by an in-range `Range` query: `0 ≤ l ≤ r < n`. -/
def GoodKey (n : Nat) (k : RangeKey) : Prop :=
  0 ≤ k.1 ∧ k.1 ≤ k.2 ∧ k.2 < (n : Int)

/-- Every resident cache entry stores the sum of the current array over its
in-range key — the freshness invariant of the spec. -/
def Fresh (a : List Int) (c : LRUCache) : Prop :=
  ∀ p ∈ c.od, GoodKey a.length p.1 ∧ p.2 = range_sum_no_cache a p.1.1 p.1.2

theorem get_mem_sub (c : LRUCache) (k : RangeKey) (p : RangeKey × Int)
    (hp : p ∈ (c.get k).2.od) : p ∈ c.od := by
  unfold LRUCache.get at hp
  cases hod : odGet? c.od k with
  | some w =>
    rw [hod] at hp
    simp only at hp
    rcases List.mem_append.mp hp with hp1 | hp1
    · exact List.mem_of_mem_filter hp1
    · rw [List.mem_singleton] at hp1
      exact hp1 ▸ odGet?_mem hod
  | none =>
    rw [hod] at hp
    exact hp

theorem put_mem_sub (c : LRUCache) (k : RangeKey) (v : Int)
    (p : RangeKey × Int) (hp : p ∈ (c.put k v).od) : p ∈ c.od ∨ p = (k, v) := by
  unfold LRUCache.put at hp
  dsimp only at hp
  have hp1 : p ∈ (if (odGet? c.od k).isSome then odRemove c.od k ++ [(k, v)]
      else c.od ++ [(k, v)]) := by
    by_cases hgt : (((if (odGet? c.od k).isSome then odRemove c.od k ++ [(k, v)]
        else c.od ++ [(k, v)]).length : Nat) : Int) > c.capacity
    · rw [if_pos hgt] at hp
      exact List.mem_of_mem_drop hp
    · rwa [if_neg hgt] at hp
  by_cases hs : (odGet? c.od k).isSome
  · rw [if_pos hs] at hp1
    rcases List.mem_append.mp hp1 with hp2 | hp2
    · exact Or.inl (List.mem_of_mem_filter hp2)
    · exact Or.inr (List.mem_singleton.mp hp2)
  · rw [if_neg hs] at hp1
    rcases List.mem_append.mp hp1 with hp2 | hp2
    · exact Or.inl hp2
    · exact Or.inr (List.mem_singleton.mp hp2)

theorem Fresh_get (a : List Int) (c : LRUCache) (k : RangeKey)
    (hf : Fresh a c) : Fresh a (c.get k).2 :=
  fun p hp => hf p (get_mem_sub c k p hp)

theorem Fresh_put (a : List Int) (c : LRUCache) (k : RangeKey) (v : Int)
    (hf : Fresh a c) (hk : GoodKey a.length k)
    (hv : v = range_sum_no_cache a k.1 k.2) : Fresh a (c.put k v) := by
  intro p hp
  rcases put_mem_sub c k v p hp with hp1 | hp1
  · exact hf p hp1
  · subst hp1
    exact ⟨hk, hv⟩

theorem range_step (a : List Int) (l r : Int) (c : LRUCache)
    (hf : Fresh a c) (h1 : 0 ≤ l) (h2 : l ≤ r) (h3 : r < (a.length : Int)) :
    (range_sum_with_cache a l r c).1 = range_sum_no_cache a l r ∧
    Fresh a (range_sum_with_cache a l r c).2 := by
  have hgood : GoodKey a.length (l, r) := ⟨h1, h2, h3⟩
  unfold range_sum_with_cache
  dsimp only
  cases hod : odGet? c.od (l, r) with
  | some w =>
    have hw : w = range_sum_no_cache a l r := (hf _ (odGet?_mem hod)).2
    have hget1 : (c.get (l, r)).1 = w := by
      unfold LRUCache.get
      rw [hod]
    by_cases hw1 : w = -1
    · rw [if_neg (by rw [hget1, hw1]; simp)]
      exact ⟨rfl, Fresh_put a (c.get (l, r)).2 (l, r) _
        (Fresh_get a c (l, r) hf) hgood rfl⟩
    · rw [if_pos (by rw [hget1]; exact hw1)]
      exact ⟨hget1.trans hw, Fresh_get a c (l, r) hf⟩
  | none =>
    have hget1 : (c.get (l, r)).1 = -1 := by
      unfold LRUCache.get
      rw [hod]
    rw [if_neg (by rw [hget1]; simp)]
    exact ⟨rfl, Fresh_put a (c.get (l, r)).2 (l, r) _
      (Fresh_get a c (l, r) hf) hgood rfl⟩

theorem Fresh_update (a : List Int) (i v : Int) (c : LRUCache)
    (hf : Fresh a c) (h1 : 0 ≤ i) (h2 : i < (a.length : Int)) :
    Fresh (a.set i.toNat v)
      { c with od := c.od.filter (fun p => ¬(p.1.1 ≤ i ∧ i ≤ p.1.2)) } := by
  intro p hp
  have hp2 : p ∈ c.od := List.mem_of_mem_filter hp
  have hnov : ¬(p.1.1 ≤ i ∧ i ≤ p.1.2) := by
    have h := List.of_mem_filter hp
    simp only [decide_eq_true_eq] at h
    exact h
  obtain ⟨hk, hv⟩ := hf p hp2
  constructor
  · simpa [GoodKey, List.length_set] using hk
  · rw [range_sum_set_outside a p.1.1 p.1.2 i v hk.1 hk.2.1 hk.2.2 h1 h2 hnov]
    exact hv

theorem engineRun_refines (ops : List EOp) (a : List Int) (c : LRUCache)
    (hf : Fresh a c) (hops : ∀ op ∈ ops, OpInRange a.length op) :
    ∃ s outs, engineRun (a, c) ops = some (s, outs) ∧
      plainRun a ops = some (s.1, outs) ∧ Fresh s.1 s.2 := by
  induction ops generalizing a c with
  | nil => exact ⟨(a, c), [], rfl, rfl, hf⟩
  | cons op ops ih =>
    have hop := hops op (List.mem_cons_self op ops)
    have htail : ∀ op2 ∈ ops, OpInRange a.length op2 :=
      fun op2 hop2 => hops op2 (List.mem_cons_of_mem op hop2)
    cases op with
    | range l r =>
      obtain ⟨h1, h2, h3⟩ := hop
      obtain ⟨hval, hfresh2⟩ := range_step a l r c hf h1 h2 h3
      obtain ⟨s, outs, he, hpl, hf2⟩ :=
        ih a (range_sum_with_cache a l r c).2 hfresh2 htail
      refine ⟨s, range_sum_no_cache a l r :: outs, ?_, ?_, hf2⟩
      · have hrun : engineRun (a, c) (EOp.range l r :: ops)
            = match engineRun (a, (range_sum_with_cache a l r c).2) ops with
              | none => none
              | some (s3, outs3) =>
                some (s3, (range_sum_with_cache a l r c).1 :: outs3) := rfl
        rw [hrun, he, hval]
      · have hrun : plainRun a (EOp.range l r :: ops)
            = match plainRun a ops with
              | none => none
              | some (a3, outs3) =>
                some (a3, range_sum_no_cache a l r :: outs3) := rfl
        rw [hrun, hpl]
    | update i v =>
      obtain ⟨h1, h2⟩ := hop
      have hupd := update_with_cache_inRange a i v c h1 h2
      have hplain : update_no_cache a i v = some (a.set i.toNat v) := by
        unfold update_no_cache pySetItem
        rw [if_pos ⟨h1, h2⟩]
      have hfresh2 := Fresh_update a i v c hf h1 h2
      have htail2 : ∀ op2 ∈ ops, OpInRange (a.set i.toNat v).length op2 := by
        intro op2 hop2
        rw [List.length_set]
        exact htail op2 hop2
      obtain ⟨s, outs, he, hpl, hf2⟩ :=
        ih (a.set i.toNat v)
          { c with od := c.od.filter (fun p => ¬(p.1.1 ≤ i ∧ i ≤ p.1.2)) }
          hfresh2 htail2
      refine ⟨s, outs, ?_, ?_, hf2⟩
      · simp only [engineRun, engineStep, hupd, he]
      · simp only [plainRun, plainStep, hplain, hpl]

/-- Claim C1: for every array and every in-range workload, the cached
engine run from a fresh cache of any positive capacity never fails and its
trace of `range_sum_with_cache` results — each taken at the Store state of
its own call — coincides with the uncached reference run built from
`range_sum_no_cache` / `update_no_cache`, along with the final array. -/
theorem C1_freshness (a : List Int) (C : Int) (_hC : 1 ≤ C) (ops : List EOp)
    (hops : ∀ op ∈ ops, OpInRange a.length op) :
    (engineRun (a, LRUCache.fresh C) ops).map (fun p => (p.1.1, p.2))
      = plainRun a ops ∧
    (engineRun (a, LRUCache.fresh C) ops).isSome = true := by
  have hf : Fresh a (LRUCache.fresh C) := by
    intro p hp
    simp [LRUCache.fresh] at hp
  obtain ⟨s, outs, he, hpl, _⟩ := engineRun_refines ops a (LRUCache.fresh C) hf hops
  rw [he, hpl]
  exact ⟨rfl, rfl⟩

theorem C1_witness :
    (engineRun ([1, 2, 3], LRUCache.fresh 1)
        [EOp.range 0 1, EOp.update 1 9, EOp.range 0 2, EOp.range 0 1]).map
        (fun p => (p.1.1, p.2))
      = plainRun [1, 2, 3]
        [EOp.range 0 1, EOp.update 1 9, EOp.range 0 2, EOp.range 0 1] :=
  (C1_freshness [1, 2, 3] 1 (by decide)
    [EOp.range 0 1, EOp.update 1 9, EOp.range 0 2, EOp.range 0 1]
    (by decide)).1

/-! Section: The error-handling claims: no bounds checks, sentinel collision -/

/-- Claim C3 fails on the code: `range_sum_with_cache` with `left > right`
does not fail with an OutOfRange condition and does not leave the cache
unmodified — on the array `[5]`, the call with range `(1, 0)` returns 0,
inserts the entry `((1, 0), 0)` and bumps the miss counter. -/
theorem C3_counterexample :
    range_sum_with_cache [5] 1 0 (LRUCache.fresh 2)
      = (0, { capacity := 2, od := [((1, 0), 0)], hits := 0, misses := 1 }) := by
  decide

/-- Claim C3 amended: the engine performs no bounds checking. `Range`
operations never fail (Python slice clamping) and never touch the array;
`update_with_cache` succeeds for every index in `[-N, N)`; only an update
with an index outside `[-N, N)` fails, and it raises before any mutation,
leaving array and cache unmodified (no partial state is produced). -/
theorem C3_no_bounds_check (a : List Int) (l r i v : Int) (c : LRUCache) :
    (engineStep (a, c) (EOp.range l r)
      = some ((a, (range_sum_with_cache a l r c).2),
          some (range_sum_with_cache a l r c).1)) ∧
    (i < -(a.length : Int) ∨ (a.length : Int) ≤ i →
      update_with_cache a i v c = none) ∧
    (-(a.length : Int) ≤ i → i < (a.length : Int) →
      (update_with_cache a i v c).isSome = true) := by
  refine ⟨rfl, fun h => ?_, fun h1 h2 => ?_⟩
  · unfold update_with_cache pySetItem
    rw [if_neg (by omega), if_neg (by omega)]
  · unfold update_with_cache pySetItem
    by_cases h3 : 0 ≤ i
    · rw [if_pos ⟨h3, h2⟩]
      rfl
    · rw [if_neg (by omega), if_pos ⟨h1, by omega⟩]
      rfl

theorem C3_witness :
    update_with_cache [5] 3 9 (LRUCache.fresh 2) = none :=
  (C3_no_bounds_check [5] 0 0 3 9 (LRUCache.fresh 2)).2.1 (by decide)

/-- Claim C6 fails on the code: the miss sentinel `-1` is itself a storable
value. With `((0, 0), -1)` resident, `get` returns `-1` — exactly its
return on the empty cache — while counting a hit; and the caller
`range_sum_with_cache` then treats the present key as a miss, recomputing
the sum from the array (returning 5, not the stored `-1`). -/
theorem C6_counterexample :
    odGet? ((LRUCache.fresh 2).put (0, 0) (-1)).od (0, 0) = some (-1) ∧
    (((LRUCache.fresh 2).put (0, 0) (-1)).get (0, 0)).1 = -1 ∧
    (((LRUCache.fresh 2).put (0, 0) (-1)).get (0, 0)).2.hits = 1 ∧
    ((LRUCache.fresh 2).get (0, 0)).1 = -1 ∧
    (range_sum_with_cache [5] 0 0 ((LRUCache.fresh 2).put (0, 0) (-1))).1 = 5 := by
  decide

/-- Claim C6 amended: `get` returns the stored value, moves the key to the
most-recently-used end and bumps `hits` when the key is present, and
returns the sentinel `-1` bumping `misses` when absent; a `Range` engine
step never modifies the Store. But the sentinel is not distinguishable from
a stored `-1`: on a present key holding `-1`, the cache counts a hit while
`range_sum_with_cache` takes the miss path, recomputing the sum from the
array and re-storing it. -/
theorem C6_get_behaviour (a : List Int) (c : LRUCache) (k : RangeKey) (v : Int) :
    (odGet? c.od k = some v →
      c.get k =
        (v, { c with od := odRemove c.od k ++ [(k, v)], hits := c.hits + 1 })) ∧
    (odGet? c.od k = none →
      c.get k = (-1, { c with misses := c.misses + 1 })) ∧
    (engineStep (a, c) (EOp.range k.1 k.2)
      = some ((a, (range_sum_with_cache a k.1 k.2 c).2),
          some (range_sum_with_cache a k.1 k.2 c).1)) ∧
    (odGet? c.od k = some (-1) →
      range_sum_with_cache a k.1 k.2 c =
        (range_sum_no_cache a k.1 k.2,
          ((c.get k).2).put k (range_sum_no_cache a k.1 k.2))) := by
  refine ⟨fun h => ?_, fun h => ?_, rfl, fun h => ?_⟩
  · unfold LRUCache.get
    rw [h]
  · unfold LRUCache.get
    rw [h]
  · have h1 : (c.get k).1 = -1 := by
      unfold LRUCache.get
      rw [h]
    unfold range_sum_with_cache
    dsimp only
    simp only [Prod.mk.eta]
    rw [if_neg (by rw [h1]; simp)]
    rfl

theorem C6_witness :
    LRUCache.get { capacity := 2, od := [((0, 0), 5)], hits := 0, misses := 0 } (0, 0)
      = (5, { capacity := 2, od := [((0, 0), 5)], hits := 1, misses := 0 }) :=
  (C6_get_behaviour []
    { capacity := 2, od := [((0, 0), 5)], hits := 0, misses := 0 } (0, 0) 5).1
    (by decide)

end Task1
